import Mathlib

/-!
Verification of the filter-rule core of `sync_tools` (src/sync_tools/rsync_wrapper.py).

Python strings are modelled as `List Char`; the functions below are direct
transcriptions of `to_filter_lines`, `parse_filter_lines`, `_match_pattern`,
`decision_for_path` and the line-building part of `build_filter_file`
(the temporary-file write is I/O and is not modelled; `build_filter_file`
returns the list of lines it wrote, which is what we model).
-/

namespace SyncTools

/-- Python strings are modelled as lists of characters. -/
abbrev Chars := List Char

/-- The whitespace characters recognised by Python `str.strip()` (ASCII range). -/
def pyIsSpace (c : Char) : Bool :=
  c == ' ' || c == '\t' || c == '\n' || c == '\r' || c == '\x0b' || c == '\x0c'

/-- Python `s.lstrip()` restricted to whitespace. -/
def lstripWs (s : Chars) : Chars := s.dropWhile pyIsSpace

/-- Python `s.rstrip()` restricted to whitespace. -/
def rstripWs (s : Chars) : Chars := (s.reverse.dropWhile pyIsSpace).reverse

/-- Python `s.strip()`. -/
def stripWs (s : Chars) : Chars := rstripWs (lstripWs s)

/-- Python `s.lstrip("/")`: drop every leading slash. -/
def lstripSlash (s : Chars) : Chars := s.dropWhile (fun c => c == '/')

/-- Python `s.rstrip("/")`: drop every trailing slash. -/
def rstripSlash (s : Chars) : Chars := (s.reverse.dropWhile (fun c => c == '/')).reverse

/-- Python `s.rstrip("/**")`.  `str.rstrip` takes a SET of characters, so this
drops every trailing character that is a slash or a star, not the literal
suffix string. -/
def rstripSlashStar (s : Chars) : Chars :=
  (s.reverse.dropWhile (fun c => c == '/' || c == '*')).reverse

/-- Python `s.startswith(pre)`. -/
def startsWith : Chars → Chars → Bool
  | [], _ => true
  | _ :: _, [] => false
  | p :: ps, c :: cs => p == c && startsWith ps cs

/-- Python `s.endswith(suf)`. -/
def endsWith (suf s : Chars) : Bool := startsWith suf.reverse s.reverse

/-- `os.path.basename`: everything after the last `/` (the whole string when
there is no slash). -/
def basename (s : Chars) : Chars := (s.reverse.takeWhile (fun c => c != '/')).reverse

/-- Python `s.split(sep)` for a single separator character.
`"".split("/") = [""]` and separators at the ends yield empty pieces. -/
def splitOnChar (sep : Char) : Chars → List Chars
  | [] => [[]]
  | c :: rest =>
    match splitOnChar sep rest with
    | [] => [[]]
    | h :: t => if c == sep then [] :: h :: t else (c :: h) :: t

/-- Python `"\n".join(lines)`. -/
def joinNl : List Chars → Chars
  | [] => []
  | [l] => l
  | l :: ls => l ++ '\n' :: joinNl ls

/-- Splitting an artifact's text back into its lines (`text.split("\n")`). -/
def splitNl (s : Chars) : List Chars := splitOnChar '\n' s

/-- `_ensure_slash_prefix` from rsync_wrapper.py: prepend `/` when absent. -/
def ensureLeadingSlash (p : Chars) : Chars :=
  if startsWith ['/'] p then p else '/' :: p

/-!
The glob matcher.  `_match_pattern` translates the pattern into an anchored
regular expression (`**` to `.*`, `*` to `[^/]*`, `?` to `[^/]`, every other
character escaped to a literal) and tests it with `re.match`.  `globMatchF`
decides that regular-expression match directly, reading the pattern as the
source's left-to-right tokenizer does (a two-star token is consumed greedily
before a single star is considered).  Python quirks are kept: `.*` does not
cross a newline, the final `$` also accepts a position just before one
trailing newline, and `[^/]` accepts a newline.  The fuel argument only
forces termination: every recursive call lowers `pattern.length + s.length`,
so starting the fuel strictly above that sum means the zero-fuel row is never
reached.  The `try/except` fallback to `fnmatch` in the source is dead code:
the constructed expression is always well-formed.
-/

/-- Fueled evaluation of the anchored regex compiled from a glob pattern. -/
def globMatchF : Nat → Chars → Chars → Bool
  | 0, _, _ => false
  | _ + 1, [], s => s.isEmpty || s == ['\n']
  | fuel + 1, '*' :: '*' :: ps, s =>
    globMatchF fuel ps s ||
      (match s with
       | [] => false
       | c :: rest => c != '\n' && globMatchF fuel ('*' :: '*' :: ps) rest)
  | fuel + 1, '*' :: ps, s =>
    globMatchF fuel ps s ||
      (match s with
       | [] => false
       | c :: rest => c != '/' && globMatchF fuel ('*' :: ps) rest)
  | fuel + 1, '?' :: ps, s =>
    (match s with
     | [] => false
     | c :: rest => c != '/' && globMatchF fuel ps rest)
  | fuel + 1, p :: ps, s =>
    (match s with
     | [] => false
     | c :: rest => p == c && globMatchF fuel ps rest)

/-- Anchored match of a translated glob pattern against a subject string. -/
def globMatch (pat s : Chars) : Bool := globMatchF (pat.length + s.length + 1) pat s

/-- The pattern normalisation at the top of `_match_pattern`: trim
whitespace, drop a leading `./`, drop leading slashes.  (The source also
records an `absolute` flag at this point, but never uses it.) -/
def normalizePat (pattern : Chars) : Chars :=
  let pat := stripWs pattern
  let pat := if startsWith ['.', '/'] pat then pat.drop 2 else pat
  lstripSlash pat

/-- `_match_pattern` from rsync_wrapper.py. -/
def _match_pattern (pattern relpath : Chars) : Bool :=
  let pat := normalizePat pattern
  let contains_slash := pat.contains '/'
  if endsWith ['/', '*', '*'] pat then
    let base := rstripSlash (pat.take (pat.length - 3))
    relpath == base || startsWith (base ++ ['/']) relpath
  else if endsWith ['/'] pat then
    let base := rstripSlash pat
    relpath == base || startsWith (base ++ ['/']) relpath
  else
    let subject := if contains_slash then relpath else basename relpath
    globMatch pat subject

/-- The loop body of `parse_filter_lines`: skip blank lines, take a
sign-and-space head, fall back to a bare leading sign, and treat anything
else as an implicit exclude of the whole trimmed line. -/
def pflStep (out : List (Char × Chars)) (ln : Chars) : List (Char × Chars) :=
  let s := stripWs ln
  if s.isEmpty then out
  else if startsWith ['+', ' '] s then out ++ [('+', stripWs (s.drop 2))]
  else if startsWith ['-', ' '] s then out ++ [('-', stripWs (s.drop 2))]
  else if s.headD ' ' == '+' || s.headD ' ' == '-' then
    out ++ [(s.headD ' ', stripWs (s.drop 1))]
  else out ++ [('-', s)]

/-- `parse_filter_lines` from rsync_wrapper.py. -/
def parse_filter_lines (lines : List Chars) : List (Char × Chars) :=
  lines.foldl pflStep []

/-- The loop body of `decision_for_path`: a matching rule overwrites the
running decision with its sign, a non-matching rule leaves it unchanged. -/
def dfpStep (relpath : Chars) (decision : String) (ap : Char × Chars) : String :=
  if _match_pattern ap.2 relpath then
    (if ap.1 == '+' then "include" else "exclude")
  else decision

/-- `decision_for_path` from rsync_wrapper.py. -/
def decision_for_path (relpath : Chars) (filter_lines : List Chars) : String :=
  let parsed := parse_filter_lines filter_lines
  parsed.foldl (dfpStep relpath) "neutral"

/-- The ancestor loop of `to_filter_lines`: starting from `acc`, extend the
accumulated path by one segment at a time and record every stage. -/
def ancestorAcc (acc : Chars) : List Chars → List Chars
  | [] => []
  | p :: ps => (acc ++ '/' :: p) :: ancestorAcc (acc ++ '/' :: p) ps

/-- The include lines emitted by `to_filter_lines` for one already-stripped
pattern `p` that starts with `!`. -/
def includeChain (p : Chars) : List Chars :=
  let base := rstripSlash (rstripSlashStar (p.drop 1))
  let base := ensureLeadingSlash base
  let parts := splitOnChar '/' (lstripSlash base)
  ['+', ' ', '/'] ::
    ((ancestorAcc [] parts).map (fun acc => '+' :: ' ' :: acc) ++
      [('+' :: ' ' :: base) ++ ['/', '*', '*']])

/-- The loop body of `to_filter_lines`: skip falsy (empty) patterns, strip
whitespace, then append include lines for a `!` pattern or one exclude line
for a plain pattern. -/
def tflStep (st : List Chars × List Chars) (pat : Chars) : List Chars × List Chars :=
  if pat.isEmpty then st
  else
    let p := stripWs pat
    if startsWith ['!'] p then (st.1 ++ includeChain p, st.2)
    else (st.1, st.2 ++ [('-' :: ' ' :: p)])

/-- `to_filter_lines` from rsync_wrapper.py: one pass that accumulates
include lines and exclude lines separately, then emits includes first. -/
def to_filter_lines (patterns : List Chars) : List Chars :=
  let st := patterns.foldl tflStep ([], [])
  st.1 ++ st.2

/-- The whitelist loop body of `build_filter_file`: skip falsy (empty)
entries, strip whitespace, drop a leading `!`, drop trailing slashes, force
a leading slash, then append the root include, the ancestor includes and
the recursive include for the entry. -/
def wlStep (lines : List Chars) (pat : Chars) : List Chars :=
  if pat.isEmpty then lines
  else
    let p := stripWs pat
    let p := if startsWith ['!'] p then p.drop 1 else p
    let p := rstripSlash p
    let p := ensureLeadingSlash p
    let parts := splitOnChar '/' (lstripSlash p)
    lines ++
      (['+', ' ', '/'] ::
        ((ancestorAcc [] parts).map (fun acc => '+' :: ' ' :: acc) ++
          [('+' :: ' ' :: p) ++ ['/', '*', '*']]))

/-- The default-excludes loop body of `build_filter_file`: skip falsy
(empty) strings, emit sign-prefixed strings verbatim, prefix the rest with
a dash. -/
def dexStep (lines : List Chars) (ex : Chars) : List Chars :=
  if ex.isEmpty then lines
  else lines ++
    [if startsWith ['+'] ex || startsWith ['-'] ex then ex else '-' :: ' ' :: ex]

/-- The line-building part of `build_filter_file` from rsync_wrapper.py.
The source also writes the lines, newline-joined, to a temporary file and
returns its name; that I/O side effect is outside the model, the returned
`lines` list is modelled exactly. -/
def build_filter_file_lines (patterns : List Chars) (only : Bool)
    (default_excludes : List Chars) : List Chars :=
  if only then
    let lines := patterns.foldl wlStep []
    let lines := default_excludes.foldl dexStep lines
    lines ++ [['-', ' ', '*']]
  else
    to_filter_lines patterns

/-!
### Claim-side descriptions

These definitions restate, in the spec's own vocabulary, what the compiler
and parser are claimed to produce; the theorems below relate them to the
transcribed source functions.
-/

/-- Per-line rule parsing as the spec states it: a leading sign-and-space
gives that sign with the trimmed remainder; a bare leading sign is a
fallback with the trimmed remainder; any other non-blank line is an
implicit exclude of the whole trimmed line; blank lines give nothing. -/
def claimParseLine (ln : Chars) : Option (Char × Chars) :=
  match stripWs ln with
  | [] => none
  | '+' :: ' ' :: rest => some ('+', stripWs rest)
  | '-' :: ' ' :: rest => some ('-', stripWs rest)
  | '+' :: rest => some ('+', stripWs rest)
  | '-' :: rest => some ('-', stripWs rest)
  | s => some ('-', s)

/-- The include lines a single pattern contributes in normal mode (empty for
non-`!` patterns). -/
def bangChain (pat : Chars) : List Chars :=
  if pat.isEmpty then []
  else if startsWith ['!'] (stripWs pat) then includeChain (stripWs pat) else []

/-- The exclude line a single pattern contributes in normal mode (empty for
`!` patterns). -/
def plainLine (pat : Chars) : List Chars :=
  if pat.isEmpty then []
  else if startsWith ['!'] (stripWs pat) then [] else ['-' :: ' ' :: stripWs pat]

/-- All include lines of a normal-mode compilation, in input order. -/
def bangIncludes (ps : List Chars) : List Chars := ps.flatMap bangChain

/-- All exclude lines of a normal-mode compilation, in input order. -/
def plainExcludes (ps : List Chars) : List Chars := ps.flatMap plainLine

/-- The include chain one whitelist entry contributes in whitelist-only
mode (empty entries contribute nothing). -/
def wchain (pat : Chars) : List Chars :=
  if pat.isEmpty then []
  else
    let p := stripWs pat
    let p := if startsWith ['!'] p then p.drop 1 else p
    let p := rstripSlash p
    let p := ensureLeadingSlash p
    let parts := splitOnChar '/' (lstripSlash p)
    ['+', ' ', '/'] ::
      ((ancestorAcc [] parts).map (fun acc => '+' :: ' ' :: acc) ++
        [('+' :: ' ' :: p) ++ ['/', '*', '*']])

/-- The rule line one default-exclude string contributes: verbatim when it
is already sign-prefixed, otherwise with a dash-space in front. -/
def dchain (ex : Chars) : List Chars :=
  if ex.isEmpty then []
  else [if startsWith ['+'] ex || startsWith ['-'] ex then ex else '-' :: ' ' :: ex]

/-- Join path segments with slashes. -/
def joinSlash : List Chars → Chars
  | [] => []
  | [p] => p
  | p :: ps => p ++ '/' :: joinSlash ps

/-- The ancestor paths of a segment list, shallowest first, each with a
leading slash; the last element is the full path itself. -/
def ancestorPaths (parts : List Chars) : List Chars :=
  (List.range parts.length).map (fun i => '/' :: joinSlash (parts.take (i + 1)))

/-! ### Basic facts about the string helpers -/

theorem startsWith_iff : ∀ (p s : Chars), startsWith p s = true ↔ p <+: s
  | [], s => by simp [startsWith]
  | a :: p, [] => by simp [startsWith]
  | a :: p, b :: s => by
    simp [startsWith, startsWith_iff p s, List.cons_prefix_cons]

theorem endsWith_slash_not_recursive {p : Chars} (h : endsWith ['/'] p = true) :
    endsWith ['/', '*', '*'] p = false := by
  unfold endsWith at h ⊢
  rcases hr : p.reverse with _ | ⟨c, t⟩
  · rw [hr] at h
    simp [startsWith] at h
  · rw [hr] at h
    simp [startsWith] at h ⊢
    intro hc
    rw [← hc] at h
    exact absurd h (by decide)

/-! ### Shape of the compiled rule lists -/

theorem tflStep_eq (i e : List Chars) (pat : Chars) :
    tflStep (i, e) pat = (i ++ bangChain pat, e ++ plainLine pat) := by
  by_cases h1 : pat.isEmpty
  · simp [tflStep, bangChain, plainLine, h1]
  · by_cases h2 : startsWith ['!'] (stripWs pat) = true
    · simp [tflStep, bangChain, plainLine, h1, h2]
    · simp [tflStep, bangChain, plainLine, h1, h2]

theorem to_filter_lines_foldl (ps : List Chars) : ∀ (i e : List Chars),
    ps.foldl tflStep (i, e) = (i ++ bangIncludes ps, e ++ plainExcludes ps) := by
  induction ps with
  | nil => intro i e; simp [bangIncludes, plainExcludes]
  | cons pat ps ih =>
    intro i e
    rw [List.foldl_cons, tflStep_eq, ih]
    simp [bangIncludes, plainExcludes, List.flatMap_cons]

theorem to_filter_lines_eq (ps : List Chars) :
    to_filter_lines ps = bangIncludes ps ++ plainExcludes ps := by
  unfold to_filter_lines
  rw [to_filter_lines_foldl]
  simp

theorem wlStep_eq (lines : List Chars) (pat : Chars) :
    wlStep lines pat = lines ++ wchain pat := by
  by_cases h1 : pat.isEmpty
  · simp [wlStep, wchain, h1]
  · simp [wlStep, wchain, h1]

theorem dexStep_eq (lines : List Chars) (ex : Chars) :
    dexStep lines ex = lines ++ dchain ex := by
  by_cases h1 : ex.isEmpty
  · simp [dexStep, dchain, h1]
  · simp [dexStep, dchain, h1]

theorem foldl_wlStep (ps : List Chars) : ∀ (acc : List Chars),
    ps.foldl wlStep acc = acc ++ ps.flatMap wchain := by
  induction ps with
  | nil => intro acc; simp
  | cons pat ps ih =>
    intro acc
    rw [List.foldl_cons, wlStep_eq, ih, List.flatMap_cons, List.append_assoc]

theorem foldl_dexStep (ds : List Chars) : ∀ (acc : List Chars),
    ds.foldl dexStep acc = acc ++ ds.flatMap dchain := by
  induction ds with
  | nil => intro acc; simp
  | cons ex ds ih =>
    intro acc
    rw [List.foldl_cons, dexStep_eq, ih, List.flatMap_cons, List.append_assoc]

theorem build_only_eq (ps ds : List Chars) :
    build_filter_file_lines ps true ds =
      ps.flatMap wchain ++ (ds.flatMap dchain ++ [['-', ' ', '*']]) := by
  unfold build_filter_file_lines
  simp [foldl_wlStep, foldl_dexStep]

/-! ### The parser as a per-line map -/

theorem pflStep_eq (out : List (Char × Chars)) (ln : Chars) :
    pflStep out ln = out ++ (claimParseLine ln).toList := by
  unfold pflStep claimParseLine
  rcases hs : stripWs ln with _ | ⟨c, t⟩ <;> simp only [hs]
  · simp
  · rcases t with _ | ⟨c2, t2⟩
    · by_cases hc : c = '+'
      · subst hc; simp [startsWith]
      · by_cases hc' : c = '-'
        · subst hc'; simp [startsWith]
        · simp [startsWith, hc, hc']
    · by_cases hc : c = '+'
      · subst hc
        by_cases hc2 : c2 = ' '
        · subst hc2; simp [startsWith]
        · simp [startsWith, hc2]
          exact fun h => absurd h.symm hc2
      · by_cases hc' : c = '-'
        · subst hc'
          by_cases hc2 : c2 = ' '
          · subst hc2; simp [startsWith]
          · simp [startsWith, hc2]
            exact fun h => absurd h.symm hc2
        · simp [startsWith, hc, hc', Ne.symm hc, Ne.symm hc']

theorem parse_filter_lines_eq (lines : List Chars) :
    parse_filter_lines lines = lines.filterMap claimParseLine := by
  have h : ∀ (ls : List Chars) (out : List (Char × Chars)),
      ls.foldl pflStep out = out ++ ls.filterMap claimParseLine := by
    intro ls
    induction ls with
    | nil => intro out; simp
    | cons ln ls ih =>
      intro out
      rw [List.foldl_cons, pflStep_eq, ih, List.filterMap_cons]
      cases hcl : claimParseLine ln <;> simp [hcl]
  unfold parse_filter_lines
  rw [h]
  simp

/-! ### Last-match-wins evaluation -/

theorem decision_foldl (r : Chars) : ∀ (l : List (Char × Chars)) (d : String),
    l.foldl (dfpStep r) d =
      (match l.reverse.find? (fun ap => _match_pattern ap.2 r) with
       | none => d
       | some ap => if ap.1 == '+' then "include" else "exclude") := by
  intro l
  induction l with
  | nil => intro d; simp
  | cons a l ih =>
    intro d
    rw [List.foldl_cons, ih, List.reverse_cons, List.find?_append]
    rcases hfind : l.reverse.find? (fun ap => _match_pattern ap.2 r) with _ | x
    · by_cases hm : _match_pattern a.2 r = true
      · simp [dfpStep, hm, hfind]
      · simp [dfpStep, hm, hfind]
    · simp [hfind, Option.or]

/-! ### The ancestor loop as a list of path stages -/

theorem joinSlash_cons_of_ne_nil {l : List Chars} (p : Chars) (h : l ≠ []) :
    joinSlash (p :: l) = p ++ '/' :: joinSlash l := by
  rcases l with _ | ⟨q, t⟩
  · exact absurd rfl h
  · rfl

theorem take_ne_nil_of_lt {α : Type} {l : List α} {i : Nat} (h : i < l.length) :
    l.take (i + 1) ≠ [] := by
  rcases l with _ | ⟨a, t⟩
  · simp at h
  · simp [List.take]

theorem ancestorAcc_eq (parts : List Chars) : ∀ (acc : Chars),
    ancestorAcc acc parts =
      (List.range parts.length).map
        (fun i => acc ++ '/' :: joinSlash (parts.take (i + 1))) := by
  induction parts with
  | nil => intro acc; simp [ancestorAcc]
  | cons p ps ih =>
    intro acc
    rw [ancestorAcc, ih (acc ++ '/' :: p)]
    rw [List.length_cons, List.range_succ_eq_map, List.map_cons, List.map_map]
    congr 1
    case e_tail =>
      apply List.map_congr_left
      intro i hi
      rw [List.mem_range] at hi
      simp only [Function.comp_apply, List.take_succ_cons]
      rw [joinSlash_cons_of_ne_nil p (take_ne_nil_of_lt hi)]
      simp

theorem ancestorPaths_eq (parts : List Chars) :
    ancestorAcc [] parts = ancestorPaths parts := by
  rw [ancestorAcc_eq]
  unfold ancestorPaths
  simp

/-! ### Newline-joined artifacts split back into their lines -/

theorem splitOnChar_ne_nil (sep : Char) (s : Chars) : splitOnChar sep s ≠ [] := by
  induction s with
  | nil => simp [splitOnChar]
  | cons c rest ih =>
    unfold splitOnChar
    rcases h : splitOnChar sep rest with _ | ⟨h1, t⟩
    · exact absurd h ih
    · by_cases hc : c == sep <;> simp [hc]

theorem splitOnChar_cons_step (sep c : Char) (rest : Chars) :
    splitOnChar sep (c :: rest) =
      (match splitOnChar sep rest with
       | [] => [[]]
       | h :: t => if c == sep then [] :: h :: t else (c :: h) :: t) := rfl

theorem splitNl_no_newline {l : Chars} (h : '\n' ∉ l) : splitNl l = [l] := by
  induction l with
  | nil => rfl
  | cons c rest ih =>
    have hc : ¬ (c == '\n') = true := by
      simp only [beq_iff_eq]
      intro hc
      exact h (hc ▸ List.mem_cons_self _ _)
    have hrest : '\n' ∉ rest := fun hm => h (List.mem_cons_of_mem _ hm)
    unfold splitNl at ih ⊢
    rw [splitOnChar_cons_step, ih hrest]
    simp [hc]

theorem splitNl_append {l : Chars} (s : Chars) (h : '\n' ∉ l) :
    splitNl (l ++ '\n' :: s) = l :: splitNl s := by
  induction l with
  | nil =>
    show splitNl ('\n' :: s) = [] :: splitNl s
    unfold splitNl
    rw [splitOnChar_cons_step]
    rcases hs : splitOnChar '\n' s with _ | ⟨h1, t⟩
    · exact absurd hs (splitOnChar_ne_nil _ _)
    · simp
  | cons c rest ih =>
    have hc : ¬ (c == '\n') = true := by
      simp only [beq_iff_eq]
      intro hc
      exact h (hc ▸ List.mem_cons_self _ _)
    have hrest : '\n' ∉ rest := fun hm => h (List.mem_cons_of_mem _ hm)
    have ih2 := ih hrest
    unfold splitNl at ih2 ⊢
    rw [List.cons_append, splitOnChar_cons_step, ih2]
    simp [hc]

theorem splitNl_joinNl : ∀ (L : List Chars), (∀ l ∈ L, '\n' ∉ l) → L ≠ [] →
    splitNl (joinNl L) = L
  | [], _, hne => absurd rfl hne
  | [l], h, _ => by
    rw [show joinNl [l] = l from rfl]
    exact splitNl_no_newline (h l (List.mem_cons_self _ _))
  | l :: l2 :: t, h, _ => by
    rw [show joinNl (l :: l2 :: t) = l ++ '\n' :: joinNl (l2 :: t) from rfl]
    rw [splitNl_append _ (h l (List.mem_cons_self _ _))]
    rw [splitNl_joinNl (l2 :: t) (fun x hx => h x (List.mem_cons_of_mem _ hx)) (by simp)]

/-! ### Lines produced by the compiler contain no newline -/

theorem mem_of_mem_stripWs {c : Char} {s : Chars} (h : c ∈ stripWs s) : c ∈ s := by
  unfold stripWs rstripWs lstripWs at h
  rw [List.mem_reverse] at h
  have h2 := List.Sublist.mem h (List.dropWhile_sublist _)
  rw [List.mem_reverse] at h2
  exact List.Sublist.mem h2 (List.dropWhile_sublist _)

theorem mem_of_mem_rstripSlash {c : Char} {s : Chars} (h : c ∈ rstripSlash s) : c ∈ s := by
  unfold rstripSlash at h
  rw [List.mem_reverse] at h
  have h2 := List.Sublist.mem h (List.dropWhile_sublist _)
  rwa [List.mem_reverse] at h2

theorem mem_of_mem_rstripSlashStar {c : Char} {s : Chars} (h : c ∈ rstripSlashStar s) :
    c ∈ s := by
  unfold rstripSlashStar at h
  rw [List.mem_reverse] at h
  have h2 := List.Sublist.mem h (List.dropWhile_sublist _)
  rwa [List.mem_reverse] at h2

theorem mem_of_mem_lstripSlash {c : Char} {s : Chars} (h : c ∈ lstripSlash s) : c ∈ s :=
  List.Sublist.mem h (List.dropWhile_sublist _)

theorem mem_of_mem_ensureLeadingSlash {c : Char} {s : Chars}
    (h : c ∈ ensureLeadingSlash s) : c = '/' ∨ c ∈ s := by
  unfold ensureLeadingSlash at h
  by_cases hs : startsWith ['/'] s = true
  · rw [if_pos hs] at h
    exact Or.inr h
  · rw [if_neg hs] at h
    rcases List.mem_cons.mp h with h | h
    · exact Or.inl h
    · exact Or.inr h

theorem mem_of_mem_splitOnChar {sep c : Char} : ∀ {s x : Chars},
    x ∈ splitOnChar sep s → c ∈ x → c ∈ s := by
  intro s
  induction s with
  | nil =>
    intro x hx hc
    simp [splitOnChar] at hx
    subst hx
    simp at hc
  | cons a rest ih =>
    intro x hx hc
    rw [splitOnChar_cons_step] at hx
    rcases h : splitOnChar sep rest with _ | ⟨h1, t⟩
    · exact absurd h (splitOnChar_ne_nil _ _)
    · rw [h] at hx
      by_cases ha : (a == sep) = true
      · simp only [ha, if_true] at hx
        rcases List.mem_cons.mp hx with hx1 | hx1
        · subst hx1
          simp at hc
        · have hx2 : x ∈ splitOnChar sep rest := h ▸ hx1
          exact List.mem_cons_of_mem _ (ih hx2 hc)
      · simp only [ha, Bool.false_eq_true, if_false] at hx
        rcases List.mem_cons.mp hx with hx1 | hx1
        · subst hx1
          rcases List.mem_cons.mp hc with hc1 | hc1
          · exact hc1 ▸ List.mem_cons_self _ _
          · have hm : h1 ∈ splitOnChar sep rest := h ▸ List.mem_cons_self _ _
            exact List.mem_cons_of_mem _ (ih hm hc1)
        · have hx2 : x ∈ splitOnChar sep rest := h ▸ List.mem_cons_of_mem _ hx1
          exact List.mem_cons_of_mem _ (ih hx2 hc)

theorem ancestorAcc_no_newline : ∀ (parts : List Chars) (acc : Chars),
    '\n' ∉ acc → (∀ p ∈ parts, '\n' ∉ p) →
    ∀ l ∈ ancestorAcc acc parts, '\n' ∉ l := by
  intro parts
  induction parts with
  | nil =>
    intro acc _ _ l hl
    simp [ancestorAcc] at hl
  | cons p ps ih =>
    intro acc hacc hparts l hl
    rw [ancestorAcc] at hl
    have hacc2 : '\n' ∉ acc ++ '/' :: p := by
      intro hmem
      rcases List.mem_append.mp hmem with h | h
      · exact hacc h
      · rcases List.mem_cons.mp h with h | h
        · exact absurd h (by decide)
        · exact hparts p (List.mem_cons_self _ _) h
    rcases List.mem_cons.mp hl with h | h
    · exact h ▸ hacc2
    · exact ih _ hacc2 (fun q hq => hparts q (List.mem_cons_of_mem _ hq)) l h

theorem includeChain_no_newline {p : Chars} (hp : '\n' ∉ p) :
    ∀ l ∈ includeChain p, '\n' ∉ l := by
  intro l hl
  unfold includeChain at hl
  have hbase : '\n' ∉ ensureLeadingSlash (rstripSlash (rstripSlashStar (p.drop 1))) := by
    intro hmem
    rcases mem_of_mem_ensureLeadingSlash hmem with h | h
    · exact absurd h (by decide)
    · exact hp (List.mem_of_mem_drop (mem_of_mem_rstripSlashStar (mem_of_mem_rstripSlash h)))
  have hparts : ∀ q ∈ splitOnChar '/'
      (lstripSlash (ensureLeadingSlash (rstripSlash (rstripSlashStar (p.drop 1))))),
      '\n' ∉ q := by
    intro q hq hmem
    exact hbase (mem_of_mem_lstripSlash (mem_of_mem_splitOnChar hq hmem))
  rcases List.mem_cons.mp hl with h | h
  · subst h
    decide
  · rcases List.mem_append.mp h with h | h
    · rcases List.mem_map.mp h with ⟨a, ha, rfl⟩
      intro hmem
      rcases List.mem_cons.mp hmem with h1 | h1
      · exact absurd h1 (by decide)
      · rcases List.mem_cons.mp h1 with h2 | h2
        · exact absurd h2 (by decide)
        · exact ancestorAcc_no_newline _ [] (by simp) hparts a ha h2
    · rcases List.mem_singleton.mp h with rfl
      intro hmem
      rcases List.mem_append.mp hmem with h1 | h1
      · rcases List.mem_cons.mp h1 with h2 | h2
        · exact absurd h2 (by decide)
        · rcases List.mem_cons.mp h2 with h3 | h3
          · exact absurd h3 (by decide)
          · exact hbase h3
      · exact absurd h1 (by decide)

theorem wchain_no_newline {pat : Chars} (hp : '\n' ∉ pat) :
    ∀ l ∈ wchain pat, '\n' ∉ l := by
  intro l hl
  unfold wchain at hl
  by_cases he : pat.isEmpty
  · rw [if_pos he] at hl
    simp at hl
  · rw [if_neg he] at hl
    have hq : '\n' ∉ (if startsWith ['!'] (stripWs pat) then (stripWs pat).drop 1
        else stripWs pat) := by
      by_cases hb : startsWith ['!'] (stripWs pat) = true
      · rw [if_pos hb]
        intro hmem
        exact hp (mem_of_mem_stripWs (List.mem_of_mem_drop hmem))
      · rw [if_neg hb]
        intro hmem
        exact hp (mem_of_mem_stripWs hmem)
    have hbase : '\n' ∉ ensureLeadingSlash (rstripSlash
        (if startsWith ['!'] (stripWs pat) then (stripWs pat).drop 1 else stripWs pat)) := by
      intro hmem
      rcases mem_of_mem_ensureLeadingSlash hmem with h | h
      · exact absurd h (by decide)
      · exact hq (mem_of_mem_rstripSlash h)
    have hparts : ∀ q ∈ splitOnChar '/' (lstripSlash (ensureLeadingSlash (rstripSlash
        (if startsWith ['!'] (stripWs pat) then (stripWs pat).drop 1 else stripWs pat)))),
        '\n' ∉ q := by
      intro q hqm hmem
      exact hbase (mem_of_mem_lstripSlash (mem_of_mem_splitOnChar hqm hmem))
    rcases List.mem_cons.mp hl with h | h
    · subst h
      decide
    · rcases List.mem_append.mp h with h | h
      · rcases List.mem_map.mp h with ⟨a, ha, rfl⟩
        intro hmem
        rcases List.mem_cons.mp hmem with h1 | h1
        · exact absurd h1 (by decide)
        · rcases List.mem_cons.mp h1 with h2 | h2
          · exact absurd h2 (by decide)
          · exact ancestorAcc_no_newline _ [] (by simp) hparts a ha h2
      · rcases List.mem_singleton.mp h with rfl
        intro hmem
        rcases List.mem_append.mp hmem with h1 | h1
        · rcases List.mem_cons.mp h1 with h2 | h2
          · exact absurd h2 (by decide)
          · rcases List.mem_cons.mp h2 with h3 | h3
            · exact absurd h3 (by decide)
            · exact hbase h3
        · exact absurd h1 (by decide)

theorem bangChain_no_newline {pat : Chars} (hp : '\n' ∉ pat) :
    ∀ l ∈ bangChain pat, '\n' ∉ l := by
  intro l hl
  unfold bangChain at hl
  by_cases he : pat.isEmpty
  · rw [if_pos he] at hl
    simp at hl
  · rw [if_neg he] at hl
    by_cases hb : startsWith ['!'] (stripWs pat) = true
    · rw [if_pos hb] at hl
      exact includeChain_no_newline (fun hm => hp (mem_of_mem_stripWs hm)) l hl
    · rw [if_neg hb] at hl
      simp at hl

theorem plainLine_no_newline {pat : Chars} (hp : '\n' ∉ pat) :
    ∀ l ∈ plainLine pat, '\n' ∉ l := by
  intro l hl
  unfold plainLine at hl
  by_cases he : pat.isEmpty
  · rw [if_pos he] at hl
    simp at hl
  · rw [if_neg he] at hl
    by_cases hb : startsWith ['!'] (stripWs pat) = true
    · rw [if_pos hb] at hl
      simp at hl
    · rw [if_neg hb] at hl
      rcases List.mem_singleton.mp hl with rfl
      intro hmem
      rcases List.mem_cons.mp hmem with h1 | h1
      · exact absurd h1 (by decide)
      · rcases List.mem_cons.mp h1 with h2 | h2
        · exact absurd h2 (by decide)
        · exact hp (mem_of_mem_stripWs h2)

theorem dchain_no_newline {ex : Chars} (hp : '\n' ∉ ex) :
    ∀ l ∈ dchain ex, '\n' ∉ l := by
  intro l hl
  unfold dchain at hl
  by_cases he : ex.isEmpty
  · rw [if_pos he] at hl
    simp at hl
  · rw [if_neg he] at hl
    rcases List.mem_singleton.mp hl with rfl
    by_cases hb : (startsWith ['+'] ex || startsWith ['-'] ex) = true
    · rw [if_pos hb]
      exact hp
    · rw [if_neg hb]
      intro hmem
      rcases List.mem_cons.mp hmem with h1 | h1
      · exact absurd h1 (by decide)
      · rcases List.mem_cons.mp h1 with h2 | h2
        · exact absurd h2 (by decide)
        · exact hp h2

theorem to_filter_lines_no_newline {ps : List Chars} (hps : ∀ p ∈ ps, '\n' ∉ p) :
    ∀ l ∈ to_filter_lines ps, '\n' ∉ l := by
  intro l hl
  rw [to_filter_lines_eq] at hl
  rcases List.mem_append.mp hl with h | h
  · rcases List.mem_flatMap.mp h with ⟨p, hpm, hlm⟩
    exact bangChain_no_newline (hps p hpm) l hlm
  · rcases List.mem_flatMap.mp h with ⟨p, hpm, hlm⟩
    exact plainLine_no_newline (hps p hpm) l hlm

theorem build_no_newline {ps ds : List Chars} (only : Bool)
    (hps : ∀ p ∈ ps, '\n' ∉ p) (hds : ∀ d ∈ ds, '\n' ∉ d) :
    ∀ l ∈ build_filter_file_lines ps only ds, '\n' ∉ l := by
  cases only with
  | false => exact to_filter_lines_no_newline hps
  | true =>
    intro l hl
    rw [build_only_eq] at hl
    rcases List.mem_append.mp hl with h | h
    · rcases List.mem_flatMap.mp h with ⟨p, hpm, hlm⟩
      exact wchain_no_newline (hps p hpm) l hlm
    · rcases List.mem_append.mp h with h | h
      · rcases List.mem_flatMap.mp h with ⟨d, hdm, hlm⟩
        exact dchain_no_newline (hds d hdm) l hlm
      · rcases List.mem_singleton.mp h with rfl
        decide

theorem includeChain_head {p l : Chars} (hl : l ∈ includeChain p) : l.head? = some '+' := by
  unfold includeChain at hl
  rcases List.mem_cons.mp hl with h | h
  · subst h
    rfl
  · rcases List.mem_append.mp h with h | h
    · rcases List.mem_map.mp h with ⟨a, _, rfl⟩
      rfl
    · rcases List.mem_singleton.mp h with rfl
      rfl

theorem bangChain_head {p l : Chars} (hl : l ∈ bangChain p) : l.head? = some '+' := by
  unfold bangChain at hl
  by_cases he : p.isEmpty
  · rw [if_pos he] at hl
    simp at hl
  · rw [if_neg he] at hl
    by_cases hb : startsWith ['!'] (stripWs p) = true
    · rw [if_pos hb] at hl
      exact includeChain_head hl
    · rw [if_neg hb] at hl
      simp at hl

theorem plainLine_head {p l : Chars} (hl : l ∈ plainLine p) : l.head? = some '-' := by
  unfold plainLine at hl
  by_cases he : p.isEmpty
  · rw [if_pos he] at hl
    simp at hl
  · rw [if_neg he] at hl
    by_cases hb : startsWith ['!'] (stripWs p) = true
    · rw [if_pos hb] at hl
      simp at hl
    · rw [if_neg hb] at hl
      rcases List.mem_singleton.mp hl with rfl
      rfl

theorem wchain_head {p l : Chars} (hl : l ∈ wchain p) : l.head? = some '+' := by
  unfold wchain at hl
  by_cases he : p.isEmpty
  · rw [if_pos he] at hl
    simp at hl
  · rw [if_neg he] at hl
    rcases List.mem_cons.mp hl with h | h
    · subst h
      rfl
    · rcases List.mem_append.mp h with h | h
      · rcases List.mem_map.mp h with ⟨a, _, rfl⟩
        rfl
      · rcases List.mem_singleton.mp h with rfl
        rfl

/-! ## The claims -/

/-- C1: Last-match-wins evaluation: for every relative path and ordered
list of filter lines, `decision_for_path` returns the sign of the last
parsed rule whose pattern matches the path ("include" for `+`, "exclude"
for `-`) and "neutral" when no rule matches; the scan never stops early
(the result is determined by the last match over the whole list).  The two
concrete rule lists of the claim behave as stated. -/
theorem C1_last_match_wins :
    (∀ (r : Chars) (lines : List Chars),
      decision_for_path r lines =
        (match (parse_filter_lines lines).reverse.find?
            (fun ap => _match_pattern ap.2 r) with
         | none => "neutral"
         | some ap => if ap.1 == '+' then "include" else "exclude")) ∧
    decision_for_path "a/important.log".data
      ["- *.log".data, "+ important.log".data] = "include" ∧
    decision_for_path "a/important.log".data
      ["+ *.log".data, "- important.log".data] = "exclude" := by
  refine ⟨fun r lines => ?_, by decide, by decide⟩
  unfold decision_for_path
  exact decision_foldl r (parse_filter_lines lines) "neutral"

/-- C2: Evaluating the code at the failing input: in normal
(`only = false`) mode `build_filter_file` ignores `default_excludes`
entirely (the branch only calls `to_filter_lines patterns`), so with the
CLI's actual default `["- /.git/"]` the compiled lines are just
`["- src"]` and no `.git` rule is present, although the whitelist branch
does append default excludes. -/
theorem C2_default_excludes_dropped_in_normal_mode :
    build_filter_file_lines ["src".data] false ["- /.git/".data] = ["- src".data] ∧
    "- /.git/".data ∉ build_filter_file_lines ["src".data] false ["- /.git/".data] ∧
    "- /.git/".data ∈ build_filter_file_lines ["src".data] true ["- /.git/".data] := by
  refine ⟨by decide, by decide, by decide⟩

/-- C3 counterexample: for the force-include pattern `!a/b*` the claim
predicts include rules for `/a`, `/a/b*` and `/a/b*/**` in that order
(no stripping applies, since `a/b*` ends in neither `/**` nor `/`), but
the compiler strips the trailing star and emits rules for `/a/b` instead;
in particular the claimed rule `+ /a/b*` never appears. -/
theorem C3_counterexample_star_stripped :
    to_filter_lines ["!a/b*".data] =
      ["+ /".data, "+ /a".data, "+ /a/b".data, "+ /a/b/**".data] ∧
    "+ /a/b*".data ∉ to_filter_lines ["!a/b*".data] := by
  refine ⟨by decide, by decide⟩

/-- C3 (amended): for every force-include pattern (a nonempty entry whose
stripped text starts with `!`), with X the remainder after deleting every
trailing `/` and `*` character and forcing a leading slash, compilation
emits one include rule for the root (`+ /`), then one include rule per
ancestor path of X from shallowest to deepest ending with X itself, then
the recursive include `+ X/**`, in that order and before every other rule
of the compilation; compiling `["!a/b/c"]` produces include rules for
`/a`, `/a/b`, `/a/b/c` and `/a/b/c/**` in that order. -/
theorem C3_force_include_chain :
    (∀ (pat : Chars) (ps : List Chars), pat.isEmpty = false →
      startsWith ['!'] (stripWs pat) = true →
      to_filter_lines (pat :: ps) =
        ['+', ' ', '/'] ::
          ((ancestorPaths (splitOnChar '/' (lstripSlash (ensureLeadingSlash
              (rstripSlash (rstripSlashStar ((stripWs pat).drop 1))))))).map
            (fun a => '+' :: ' ' :: a) ++
          ([('+' :: ' ' :: ensureLeadingSlash (rstripSlash (rstripSlashStar
              ((stripWs pat).drop 1)))) ++ ['/', '*', '*']] ++
            to_filter_lines ps))) ∧
    to_filter_lines ["!a/b/c".data] =
      ["+ /".data, "+ /a".data, "+ /a/b".data, "+ /a/b/c".data,
        "+ /a/b/c/**".data] := by
  refine ⟨fun pat ps hne hbang => ?_, by decide⟩
  rw [to_filter_lines_eq, to_filter_lines_eq]
  unfold bangIncludes plainExcludes
  rw [List.flatMap_cons, List.flatMap_cons]
  rw [show bangChain pat = includeChain (stripWs pat) from by
    unfold bangChain; rw [hne]; simp [hbang]]
  rw [show plainLine pat = [] from by
    unfold plainLine; rw [hne]; simp [hbang]]
  rw [show includeChain (stripWs pat) =
      ['+', ' ', '/'] ::
        ((ancestorPaths (splitOnChar '/' (lstripSlash (ensureLeadingSlash
            (rstripSlash (rstripSlashStar ((stripWs pat).drop 1))))))).map
          (fun a => '+' :: ' ' :: a) ++
        [('+' :: ' ' :: ensureLeadingSlash (rstripSlash (rstripSlashStar
            ((stripWs pat).drop 1)))) ++ ['/', '*', '*']]) from by
    simp only [includeChain]
    rw [ancestorPaths_eq]]
  simp [List.append_assoc]

/-- C3 witness: the general part of `C3_force_include_chain` applied to
the concrete force-include pattern `!a/b/c` followed by a plain pattern. -/
theorem C3_force_include_chain_witness :
    ("!a/b/c".data).isEmpty = false ∧
    startsWith ['!'] (stripWs "!a/b/c".data) = true ∧
    to_filter_lines ("!a/b/c".data :: ["x".data]) =
      ['+', ' ', '/'] ::
        ((ancestorPaths (splitOnChar '/' (lstripSlash (ensureLeadingSlash
            (rstripSlash (rstripSlashStar ((stripWs "!a/b/c".data).drop 1))))))).map
          (fun a => '+' :: ' ' :: a) ++
        ([('+' :: ' ' :: ensureLeadingSlash (rstripSlash (rstripSlashStar
            ((stripWs "!a/b/c".data).drop 1)))) ++ ['/', '*', '*']] ++
          to_filter_lines ["x".data])) :=
  ⟨by decide, by decide, C3_force_include_chain.1 _ _ (by decide) (by decide)⟩

/-- C4: Whitelist-only invariant: the rule sequence produced with
`only = true` decomposes into one `+`-headed ancestor-inclusive chain per
entry (in order), then the default-exclude rules, then the catch-all
`- *`; it is never empty, its last rule is always `- *`, empty entries
contribute no rules, and every chain line starts with `+`. -/
theorem C4_whitelist_invariant :
    (∀ (ps ds : List Chars),
      build_filter_file_lines ps true ds =
        ps.flatMap wchain ++ (ds.flatMap dchain ++ [['-', ' ', '*']]) ∧
      build_filter_file_lines ps true ds ≠ [] ∧
      (build_filter_file_lines ps true ds).getLast? = some "- *".data ∧
      (∀ p : Chars, p.isEmpty = true → wchain p = []) ∧
      (∀ (p l : Chars), l ∈ wchain p → l.head? = some '+')) ∧
    (build_filter_file_lines ["src".data, "README.md".data] true
      ["/.git/".data]).getLast? = some "- *".data := by
  refine ⟨fun ps ds => ⟨build_only_eq ps ds, ?_, ?_, ?_, ?_⟩, by decide⟩
  · rw [build_only_eq]
    simp
  · rw [build_only_eq, ← List.append_assoc, List.getLast?_concat]
  · intro p hp
    unfold wchain
    rw [if_pos hp]
  · intro p l hl
    exact wchain_head hl

/-- C4 witness: the `getLast?` component of `C4_whitelist_invariant` at a
concrete whitelist containing an empty entry. -/
theorem C4_whitelist_invariant_witness :
    (build_filter_file_lines ["src".data, "".data] true ["/.git/".data]).getLast?
      = some "- *".data :=
  (C4_whitelist_invariant.1 ["src".data, "".data] ["/.git/".data]).2.2.1

/-- C5: Basename versus full-path scoping: for every pattern whose
normalised form ends in neither `/**` nor `/`, the matcher runs the
translated glob against the whole relative path when the normalised
pattern contains a slash and against the basename only otherwise; the
concrete rules `- foo` and `- /a/b` behave as claimed. -/
theorem C5_basename_vs_path_scoping :
    (∀ (pat r : Chars),
      endsWith ['/', '*', '*'] (normalizePat pat) = false →
      endsWith ['/'] (normalizePat pat) = false →
      _match_pattern pat r =
        globMatch (normalizePat pat)
          (if (normalizePat pat).contains '/' then r else basename r)) ∧
    decision_for_path "foo".data ["- foo".data] = "exclude" ∧
    decision_for_path "a/foo".data ["- foo".data] = "exclude" ∧
    decision_for_path "a/bar".data ["- foo".data] = "neutral" ∧
    decision_for_path "a/b".data ["- /a/b".data] = "exclude" ∧
    decision_for_path "a/b/c".data ["- /a/b".data] = "neutral" := by
  refine ⟨fun pat r h1 h2 => ?_, by decide, by decide, by decide, by decide, by decide⟩
  unfold _match_pattern
  simp [h1, h2]

/-- C5 witness: the general part of `C5_basename_vs_path_scoping` applied
to the slash-free pattern `foo` and the path `a/foo`. -/
theorem C5_basename_vs_path_scoping_witness :
    endsWith ['/', '*', '*'] (normalizePat "foo".data) = false ∧
    endsWith ['/'] (normalizePat "foo".data) = false ∧
    _match_pattern "foo".data "a/foo".data =
      globMatch (normalizePat "foo".data)
        (if (normalizePat "foo".data).contains '/' then "a/foo".data
         else basename "a/foo".data) :=
  ⟨by decide, by decide, C5_basename_vs_path_scoping.1 _ _ (by decide) (by decide)⟩

/-- C6: Recursive and directory suffix semantics: a pattern whose
normalised form ends in `/**` matches exactly the paths equal to the
slash-stripped prefix or strictly below it, a pattern whose normalised
form ends in a bare `/` matches by the identical rule, and the concrete
rules `- /a/b/**` and `- dir/` behave as claimed. -/
theorem C6_recursive_and_directory_suffix :
    (∀ (pat r : Chars), endsWith ['/', '*', '*'] (normalizePat pat) = true →
      (_match_pattern pat r = true ↔
        (r = rstripSlash ((normalizePat pat).take ((normalizePat pat).length - 3)) ∨
          (rstripSlash ((normalizePat pat).take ((normalizePat pat).length - 3))
            ++ ['/']) <+: r))) ∧
    (∀ (pat r : Chars), endsWith ['/'] (normalizePat pat) = true →
      (_match_pattern pat r = true ↔
        (r = rstripSlash (normalizePat pat) ∨
          (rstripSlash (normalizePat pat) ++ ['/']) <+: r))) ∧
    decision_for_path "a/b".data ["- /a/b/**".data] = "exclude" ∧
    decision_for_path "a/b/c.txt".data ["- /a/b/**".data] = "exclude" ∧
    decision_for_path "a/b/c/d.txt".data ["- /a/b/**".data] = "exclude" ∧
    decision_for_path "dir".data ["- dir/".data] = "exclude" ∧
    decision_for_path "dir/file.txt".data ["- dir/".data] = "exclude" ∧
    decision_for_path "otherdir/dirfile".data ["- dir/".data] = "neutral" := by
  refine ⟨fun pat r h => ?_, fun pat r h => ?_, by decide, by decide, by decide,
    by decide, by decide, by decide⟩
  · unfold _match_pattern
    simp [h, startsWith_iff]
  · unfold _match_pattern
    simp [h, endsWith_slash_not_recursive h, startsWith_iff]

/-- C6 witness: both general parts of `C6_recursive_and_directory_suffix`
applied to `- /a/b/**` against `a/b/c.txt` and to `dir/` against
`dir/file.txt`. -/
theorem C6_recursive_and_directory_suffix_witness :
    endsWith ['/', '*', '*'] (normalizePat "/a/b/**".data) = true ∧
    (_match_pattern "/a/b/**".data "a/b/c.txt".data = true ↔
      ("a/b/c.txt".data = rstripSlash ((normalizePat "/a/b/**".data).take
          ((normalizePat "/a/b/**".data).length - 3)) ∨
        (rstripSlash ((normalizePat "/a/b/**".data).take
          ((normalizePat "/a/b/**".data).length - 3)) ++ ['/'])
          <+: "a/b/c.txt".data)) ∧
    endsWith ['/'] (normalizePat "dir/".data) = true ∧
    (_match_pattern "dir/".data "dir/file.txt".data = true ↔
      ("dir/file.txt".data = rstripSlash (normalizePat "dir/".data) ∨
        (rstripSlash (normalizePat "dir/".data) ++ ['/']) <+: "dir/file.txt".data)) :=
  ⟨by decide, C6_recursive_and_directory_suffix.1 _ _ (by decide), by decide,
    C6_recursive_and_directory_suffix.2.1 _ _ (by decide)⟩

/-- C7: Evaluating the code at the failing input: Python's
`rstrip("/**")` removes any run of trailing `/` and `*` characters, so
the force-include pattern `!keep*` (which ends in neither `/**` nor `/`)
is compiled with its text changed: the emitted rules are for `keep`, not
`keep*`, and `rstrip` itself maps `keep*` to `keep`. -/
theorem C7_star_suffix_stripped :
    to_filter_lines ["!keep*".data] =
      ["+ /".data, "+ /keep".data, "+ /keep/**".data] ∧
    "+ /keep*".data ∉ to_filter_lines ["!keep*".data] ∧
    rstripSlashStar "keep*".data = "keep".data := by
  refine ⟨by decide, by decide, by decide⟩

/-- C8: Rule-line parsing: `parse_filter_lines` is exactly the per-line
map that sends a `+ `/`- ` line to its sign with the trimmed remainder, a
bare-sign line to that sign with the trimmed remainder, any other
non-blank line to an implicit exclude of the whole trimmed line, and a
blank line to nothing; a concrete line list of all four kinds parses as
claimed. -/
theorem C8_rule_line_parsing :
    (∀ (lines : List Chars), parse_filter_lines lines = lines.filterMap claimParseLine) ∧
    parse_filter_lines ["+ /a".data, "-x".data, "   ".data, "raw pattern".data] =
      [('+', "/a".data), ('-', "x".data), ('-', "raw pattern".data)] :=
  ⟨parse_filter_lines_eq, by decide⟩

/-- C9 counterexample: the round-trip claim fails for a compiler input
containing an embedded newline: the pattern list `["a\nx"]` compiles to
the single line `- a\nx`, whose newline-joined artifact re-splits into
the two rules `- a` and `x`, so the re-parsed artifact excludes the path
`x` while the in-memory lines leave it neutral. -/
theorem C9_counterexample_newline_pattern :
    decision_for_path "x".data
      (splitNl (joinNl (to_filter_lines [['a', '\n', 'x']]))) = "exclude" ∧
    decision_for_path "x".data (to_filter_lines [['a', '\n', 'x']]) = "neutral" := by
  refine ⟨by decide, by decide⟩

/-- C9 (amended): for every compiler input whose patterns and
default-exclude strings contain no newline character, splitting the
newline-joined artifact text back into lines and evaluating them yields
exactly the same decision as evaluating the in-memory rule lines
directly, for every relative path and in both modes. -/
theorem C9_round_trip :
    ∀ (ps ds : List Chars) (only : Bool) (r : Chars),
      (∀ p ∈ ps, '\n' ∉ p) → (∀ d ∈ ds, '\n' ∉ d) →
      decision_for_path r (splitNl (joinNl (build_filter_file_lines ps only ds))) =
        decision_for_path r (build_filter_file_lines ps only ds) := by
  intro ps ds only r hps hds
  by_cases hL : build_filter_file_lines ps only ds = []
  · rw [hL]
    rfl
  · rw [splitNl_joinNl _ (build_no_newline only hps hds) hL]

/-- C9 witness: `C9_round_trip` applied to a concrete normal-mode
compilation with a force-include, a plain exclude and a default exclude. -/
theorem C9_round_trip_witness :
    (∀ p ∈ ["!a".data, "b.log".data], '\n' ∉ p) ∧
    (∀ d ∈ ["- /.git/".data], '\n' ∉ d) ∧
    decision_for_path "a/x".data (splitNl (joinNl (build_filter_file_lines
        ["!a".data, "b.log".data] false ["- /.git/".data]))) =
      decision_for_path "a/x".data (build_filter_file_lines
        ["!a".data, "b.log".data] false ["- /.git/".data]) :=
  ⟨by decide, by decide, C9_round_trip _ _ _ _ (by decide) (by decide)⟩

/-- C10: Include rules are hoisted before exclude rules in normal mode:
the output of `to_filter_lines` is exactly the include rules generated
from `!`-prefixed patterns, in input order, followed by the exclude rules
generated from plain patterns, in input order; every line of the first
block starts with `+` and every line of the second with `-`, so no
exclude ever precedes an include.  A concrete interleaved input compiles
to the hoisted form. -/
theorem C10_includes_before_excludes :
    (∀ (ps : List Chars),
      to_filter_lines ps = bangIncludes ps ++ plainExcludes ps ∧
      (∀ l ∈ bangIncludes ps, l.head? = some '+') ∧
      (∀ l ∈ plainExcludes ps, l.head? = some '-')) ∧
    to_filter_lines ["a".data, "!b".data, "c".data, "!d".data] =
      ["+ /".data, "+ /b".data, "+ /b/**".data, "+ /".data, "+ /d".data,
        "+ /d/**".data, "- a".data, "- c".data] := by
  refine ⟨fun ps => ⟨to_filter_lines_eq ps, ?_, ?_⟩, by decide⟩
  · intro l hl
    rcases List.mem_flatMap.mp hl with ⟨p, _, hlp⟩
    exact bangChain_head hlp
  · intro l hl
    rcases List.mem_flatMap.mp hl with ⟨p, _, hlp⟩
    exact plainLine_head hlp

/-- C10 witness: the decomposition component of
`C10_includes_before_excludes` at a concrete interleaved pattern list. -/
theorem C10_includes_before_excludes_witness :
    to_filter_lines ["a".data, "!b".data] =
      bangIncludes ["a".data, "!b".data] ++ plainExcludes ["a".data, "!b".data] :=
  (C10_includes_before_excludes.1 ["a".data, "!b".data]).1

end SyncTools
